import Mathlib

/-!
Verification of the codec layer of the `thousand-curses` repository
(`src/codec.py`), as a shallow embedding in Lean 4.

Modelling conventions:
* A Python `bytes` value is a `List Byte` with `Byte := Fin 256`.
* A Python `str` value is a `Text := List Char` (a sequence of unicode
  scalar values, which is exactly what a Python string is).
* Python exceptions are modelled by the error type `Err`, one constructor
  per failure condition named as in the specification's error taxonomy:
  `invalidHexToken` is the `ValueError` raised by `int(tok, 16)` on a bad
  token or by `bytes(...)` on an out-of-range value, `undefinedByteMapping`
  is the `KeyError` of a missing transliteration-table entry,
  `unsupportedOperation` is the `NotImplementedError` of the abstract
  `Codec` base class, and `indexError` is the `IndexError` of indexing
  `bytestr[0]` on an empty buffer.
* Fallible Python functions become functions into `Except Err _` or
  `Option _`.
* The transliteration table `resources/hexmap.yaml` is loaded from a data
  file that is not among the sources, so table-backed codecs take the
  table as an explicit argument (see `MajinTenseiIIByte.decode`).
-/

/-- A byte value 0–255, as produced by iterating a Python `bytes` object. -/
abbrev Byte := Fin 256

/-- A Python string: a finite sequence of unicode scalar values. -/
abbrev Text := List Char

/-- Failure conditions of the codec layer, named after the specification's
error taxonomy.  Each constructor corresponds to one Python exception site in
`src/codec.py`: `invalidHexToken` to the `ValueError` of `int(tok, base=16)` /
`bytes(...)`, `undefinedByteMapping` to the `KeyError` of `transliter[...]`,
`unsupportedOperation` to the `NotImplementedError` of the abstract `Codec`
methods, and `indexError` to `bytestr[0]` on an empty buffer. -/
inductive Err : Type where
  | invalidHexToken : Err
  | undefinedByteMapping : Err
  | unsupportedOperation : Err
  | indexError : Err
deriving DecidableEq

/-- Whitespace classification of Python `str.split()` / `int(s, 16)`
stripping: the unicode code points Python treats as whitespace
(ASCII whitespace, the C1 controls 0x1c–0x1f and 0x85, NBSP, and the
unicode space separators). -/
def pyIsSpace (c : Char) : Bool :=
  decide (c.toNat ∈ ([0x09, 0x0a, 0x0b, 0x0c, 0x0d, 0x1c, 0x1d, 0x1e, 0x1f,
      0x20, 0x85, 0xa0, 0x1680, 0x2028, 0x2029, 0x202f, 0x205f, 0x3000] : List Nat)
    ∨ (0x2000 ≤ c.toNat ∧ c.toNat ≤ 0x200a))

/-- Model of Python `str.split()` (no separator argument): split on runs of
whitespace, discarding empty tokens.  A non-space character is prepended to
the following token when the next character is also non-space, and starts a
token of its own otherwise. -/
def pySplit : List Char → List (List Char)
  | [] => []
  | [c] => if pyIsSpace c then [] else [[c]]
  | c :: d :: cs =>
    if pyIsSpace c then pySplit (d :: cs)
    else if pyIsSpace d then [c] :: pySplit (d :: cs)
    else
      match pySplit (d :: cs) with
      | [] => [[c]]
      | t :: ts => (c :: t) :: ts

/-- Model of Python `str.split(" ")`: split at every single space character,
keeping empty tokens (so `"".split(" ") == [""]`). -/
def pySplitOnSpace : List Char → List (List Char)
  | [] => [[]]
  | c :: cs =>
    if c = ' ' then [] :: pySplitOnSpace cs
    else
      match pySplitOnSpace cs with
      | [] => [[c]]
      | t :: ts => (c :: t) :: ts

/-- Is `c` an ASCII hexadecimal digit (either case)?  These are the digit
characters accepted by Python `int(s, base=16)`. -/
def isHexDigit (c : Char) : Bool :=
  decide (('0' ≤ c ∧ c ≤ '9') ∨ ('a' ≤ c ∧ c ≤ 'f') ∨ ('A' ≤ c ∧ c ≤ 'F'))

/-- Numeric value of a hexadecimal digit character. -/
def hexVal (c : Char) : Nat :=
  if decide ('0' ≤ c ∧ c ≤ '9') then c.toNat - 48
  else if decide ('a' ≤ c ∧ c ≤ 'f') then c.toNat - 87
  else c.toNat - 55

/-- Digit-sequence loop of Python `int(s, base=16)`: after the first digit,
a single underscore may separate two digits (no trailing or doubled
underscore). -/
def hexDigitsVal : Nat → List Char → Option Nat
  | acc, [] => some acc
  | _, ['_'] => none
  | acc, '_' :: c :: cs =>
    if isHexDigit c then hexDigitsVal (16 * acc + hexVal c) cs else none
  | acc, c :: cs =>
    if isHexDigit c then hexDigitsVal (16 * acc + hexVal c) cs else none

/-- Digit part of Python `int(s, base=16)`: at least one hexadecimal digit,
then digits with single underscores between them. -/
def parseHexBody : List Char → Option Nat
  | [] => none
  | c :: cs => if isHexDigit c then hexDigitsVal (hexVal c) cs else none

/-- Part of Python `int(s, base=16)` after the optional sign: an optional
`0x`/`0X` prefix (which may be followed by one underscore), then the digits. -/
def parseAfterSign : List Char → Option Nat
  | '0' :: x :: rest =>
    if x = 'x' ∨ x = 'X' then
      match rest with
      | '_' :: rest2 => parseHexBody rest2
      | _ => parseHexBody rest
    else parseHexBody ('0' :: x :: rest)
  | cs => parseHexBody cs

/-- Model of CPython `int(s, base=16)` on a `str` argument: strip surrounding
whitespace, accept an optional sign, an optional `0x`/`0X` prefix, and ASCII
hexadecimal digits with single underscores between digits.  (CPython also
accepts non-ASCII unicode decimal digits; those do not occur in this
repository's data and are not modelled.)  Returns `none` where Python raises
`ValueError`. -/
def pyInt16 (s : Text) : Option Int :=
  match ((s.dropWhile pyIsSpace).reverse.dropWhile pyIsSpace).reverse with
  | '+' :: rest => (parseAfterSign rest).map Int.ofNat
  | '-' :: rest => (parseAfterSign rest).map (fun n => -(Int.ofNat n))
  | t => (parseAfterSign t).map Int.ofNat

/-- Evaluation of a Python comprehension whose element expression may raise:
first failure aborts the whole computation. -/
def listMapE (f : α → Except Err β) : List α → Except Err (List β)
  | [] => .ok []
  | a :: l =>
    match f a with
    | .error e => .error e
    | .ok b =>
      match listMapE f l with
      | .error e => .error e
      | .ok bs => .ok (b :: bs)

/-- Model of the range check performed by the Python `bytes(list)`
constructor on each element: values outside 0–255 raise `ValueError`. -/
def toByte (v : Int) : Except Err Byte :=
  if h : 0 ≤ v ∧ v < 256 then .ok ⟨v.toNat, by omega⟩ else .error .invalidHexToken

/-- One token parse `int(tok, base=16)` inside a comprehension: a parse
failure raises `ValueError`. -/
def pyIntTok (t : Text) : Except Err Int :=
  match pyInt16 t with
  | some v => .ok v
  | none => .error .invalidHexToken

/-- Model of Python `sep.join(strings)` for a list-of-code-points string
model. -/
def joinSep (sep : List Char) : List (List Char) → List Char
  | [] => []
  | [t] => t
  | t :: ts => t ++ sep ++ joinSep sep ts

/-- Python extended slice `l[::2]`: every element at an even index. -/
def everyOther : List α → List α
  | [] => []
  | [x] => [x]
  | x :: _ :: xs => x :: everyOther xs

/-- The character `('0'..'9','A'..'F')` for a hexadecimal digit value,
as produced by `("0"+hex(n)[2:])[-2:].upper()` in `Hexify.decode`. -/
def hexDigitChar (n : Nat) : Char :=
  if n < 10 then Char.ofNat (48 + n) else Char.ofNat (55 + n)

/-- The two-character zero-padded uppercase hexadecimal spelling
`("0"+hex(n)[2:])[-2:].upper()` of one byte. -/
def byteHex (b : Byte) : Text :=
  [hexDigitChar (b.val / 16), hexDigitChar (b.val % 16)]

/-- `Hexify.decode(bytestr)`: `"".join(("0"+hex(n)[2:])[-2:].upper() for n in
bytestr)`. -/
def Hexify.decode (bs : List Byte) : Text :=
  (bs.map byteHex).flatten

/-- `Hexify.encode(s)`: `bytes([int(s[i:i+2], base=16) for i in
range(len(s))])` — note the index advances one character at a time, so the
two-character windows overlap. -/
def Hexify.encode (s : Text) : Except Err (List Byte) :=
  match listMapE (fun i => pyIntTok ((s.drop i).take 2)) (List.range s.length) with
  | .error e => .error e
  | .ok vs => listMapE toByte vs

/-- `HexifySpaces.decode(bytestr)`: `" ".join(Hexify.decode(bytes([n])) for n
in bytestr)`. -/
def HexifySpaces.decode (bs : List Byte) : Text :=
  joinSep [' '] (bs.map (fun b => Hexify.decode [b]))

/-- `HexifySpaces.encode(s)`: `bytes([int(b, base=16) for b in s.split()])`. -/
def HexifySpaces.encode (s : Text) : Except Err (List Byte) :=
  match listMapE pyIntTok (pySplit s) with
  | .error e => .error e
  | .ok vs => listMapE toByte vs

/-- `ASCII.decode(bytestr)`: `"".join(chr(b) for b in bytestr)`. -/
def ASCII.decode (bs : List Byte) : Text :=
  bs.map (fun b => Char.ofNat b.val)

/-- `ASCII` defines no `encode`; the inherited abstract `Codec.encode` raises
`NotImplementedError` on every input. -/
def ASCII.encode (_ : Text) : Except Err (List Byte) :=
  .error .unsupportedOperation

/-- Python `chr(b).isprintable()` for a byte value `b < 256`.  The
non-printable code points below 256 are the `Cc` controls 0x00–0x1f and
0x7f–0x9f, the `Zs` NO-BREAK SPACE 0xa0 and the `Cf` SOFT HYPHEN 0xad;
the ASCII space 0x20 is printable. -/
def isprintableByte (b : Nat) : Bool :=
  decide ((0x20 ≤ b ∧ b ≤ 0x7e) ∨ (0xa1 ≤ b ∧ b ≤ 0xff ∧ b ≠ 0xad))

/-- `MonospaceASCIIByte.decode(bytestr)`: `b = bytestr[0]` (an `IndexError`
on an empty buffer), then `chr(replacements[b])` for an unprintable byte —
where `replacements = list(range(2**8, 2**9))`, so `replacements[b] = 256 + b`
— and `chr(b)` otherwise. -/
def MonospaceASCIIByte.decode : List Byte → Option Text
  | [] => none
  | b :: _ =>
    some [if ¬ isprintableByte b.val then Char.ofNat (256 + b.val) else Char.ofNat b.val]

/-- `MonospaceASCIIByte` defines no `encode`; the inherited abstract
`Codec.encode` raises `NotImplementedError` on every input. -/
def MonospaceASCIIByte.encode (_ : Text) : Except Err (List Byte) :=
  .error .unsupportedOperation

/-- `MonospaceASCII.decode(bytestr)`:
`"".join(MonospaceASCIIByte.decode(bytes([b])) for b in bytestr)`.  The inner
call never fails because its argument is a one-byte buffer, so the default
for `Option.getD` is never used. -/
def MonospaceASCII.decode (bs : List Byte) : Text :=
  (bs.map (fun b => (MonospaceASCIIByte.decode [b]).getD [])).flatten

/-- `MonospaceASCII` defines no `encode`; the inherited abstract
`Codec.encode` raises `NotImplementedError` on every input. -/
def MonospaceASCII.encode (_ : Text) : Except Err (List Byte) :=
  .error .unsupportedOperation

/-- Modelled from the spec: the transliteration table of
`MajinTenseiIIByte` is loaded from `resources/hexmap.yaml`, a data file that
is not among the sources.  Per §3/§6 of the specification it is an immutable
mapping from byte values (possibly a strict subset of 0–255) to display
strings, with missing keys legal at load time; it is therefore modelled as an
abstract partial mapping passed explicitly to the table-backed codecs. -/
def TransliterationTable : Type := Byte → Option Text

/-- `MajinTenseiIIByte.decode(bytestr)`:
`MajinTenseiIIByte.transliter[bytestr[0]]` — an `IndexError` on an empty
buffer, a `KeyError` (`UndefinedByteMapping`) when the first byte has no
table entry. -/
def MajinTenseiIIByte.decode (table : TransliterationTable) : List Byte → Except Err Text
  | [] => .error .indexError
  | b :: _ =>
    match table b with
    | some t => .ok t
    | none => .error .undefinedByteMapping

/-- `MajinTenseiIIByte` defines no `encode`; the inherited abstract
`Codec.encode` raises `NotImplementedError` on every input. -/
def MajinTenseiIIByte.encode (_ : Text) : Except Err (List Byte) :=
  .error .unsupportedOperation

/-- `Mt2GarbageTextPair.decode(bytestr)`:
`garbage = "".join(MonospaceASCIIByte.decode(bytes([b])) for b in bytestr[1::2])`,
`text = "".join(MajinTenseiIIByte.decode(bytes([b])) for b in bytestr[::2])`,
returning `garbage + text`; a `KeyError` from a table lookup aborts the
call. -/
def Mt2GarbageTextPair.decode (table : TransliterationTable) (bs : List Byte) :
    Except Err Text :=
  let garbage :=
    ((everyOther (bs.drop 1)).map (fun b => (MonospaceASCIIByte.decode [b]).getD [])).flatten
  match listMapE (fun b => MajinTenseiIIByte.decode table [b]) (everyOther bs) with
  | .error e => .error e
  | .ok parts => .ok (garbage ++ parts.flatten)

/-- `Mt2GarbageTextPair` defines no `encode`; the inherited abstract
`Codec.encode` raises `NotImplementedError` on every input. -/
def Mt2GarbageTextPair.encode (_ : Text) : Except Err (List Byte) :=
  .error .unsupportedOperation

/-- Is `c` an uppercase hexadecimal digit `0–9`/`A–F`?  (Specification-side
notion, used to state what `Hexify.decode` produces.) -/
def isUpperHexDigit (c : Char) : Bool :=
  decide (('0' ≤ c ∧ c ≤ '9') ∨ ('A' ≤ c ∧ c ≤ 'F'))

/-- A token is a valid hexadecimal number in [0,255]: it parses under
`int(tok, base=16)` and its value is an admissible byte. -/
def validHexToken (t : Text) : Bool :=
  match pyInt16 t with
  | some v => decide (0 ≤ v ∧ v < 256)
  | none => false

/-- A small concrete transliteration table used to witness the table-backed
theorems: byte 0 maps to `"A"`, byte 2 maps to `"B"`, every other byte is
missing. -/
def demoTable : TransliterationTable :=
  fun b => if b.val = 0 then some ['A'] else if b.val = 2 then some ['B'] else none

theorem listMapE_ok_forall₂ {f : α → Except Err β} :
    ∀ {l : List α} {bs : List β}, listMapE f l = .ok bs →
      List.Forall₂ (fun a b => f a = .ok b) l bs := by
  intro l
  induction l with
  | nil =>
    intro bs h
    simp only [listMapE] at h
    cases h
    exact List.Forall₂.nil
  | cons a l ih =>
    intro bs h
    simp only [listMapE] at h
    cases hfa : f a with
    | error e => rw [hfa] at h; cases h
    | ok b =>
      rw [hfa] at h
      cases hrec : listMapE f l with
      | error e => rw [hrec] at h; cases h
      | ok bs' =>
        rw [hrec] at h
        cases h
        exact List.Forall₂.cons hfa (ih hrec)

theorem listMapE_of_forall₂ {f : α → Except Err β} :
    ∀ {l : List α} {bs : List β}, List.Forall₂ (fun a b => f a = .ok b) l bs →
      listMapE f l = .ok bs := by
  intro l bs h
  induction h with
  | nil => rfl
  | cons hfa _ ih => simp only [listMapE, hfa, ih]

theorem listMapE_err_mem {f : α → Except Err β} :
    ∀ {l : List α} {e : Err}, listMapE f l = .error e → ∃ a ∈ l, f a = .error e := by
  intro l
  induction l with
  | nil => intro e h; simp only [listMapE] at h; cases h
  | cons a l ih =>
    intro e h
    simp only [listMapE] at h
    cases hfa : f a with
    | error e' =>
      rw [hfa] at h
      cases h
      exact ⟨a, List.mem_cons_self a l, hfa⟩
    | ok b =>
      rw [hfa] at h
      cases hrec : listMapE f l with
      | error e' =>
        rw [hrec] at h
        cases h
        obtain ⟨a', ha', hfa'⟩ := ih hrec
        exact ⟨a', List.mem_cons_of_mem a ha', hfa'⟩
      | ok bs' => rw [hrec] at h; cases h

theorem forall₂_exists_right {R : α → β → Prop} :
    ∀ {l : List α} {m : List β}, List.Forall₂ R l m → ∀ {a : α}, a ∈ l → ∃ b ∈ m, R a b := by
  intro l m h
  induction h with
  | nil => intro a ha; cases ha
  | cons hr _ ih =>
    intro a ha
    rcases List.mem_cons.mp ha with rfl | ha'
    · exact ⟨_, List.mem_cons_self _ _, hr⟩
    · obtain ⟨b, hb, hrb⟩ := ih ha'
      exact ⟨b, List.mem_cons_of_mem _ hb, hrb⟩

theorem forall₂_exists_left {R : α → β → Prop} :
    ∀ {l : List α} {m : List β}, List.Forall₂ R l m → ∀ {b : β}, b ∈ m → ∃ a ∈ l, R a b := by
  intro l m h
  induction h with
  | nil => intro b hb; cases hb
  | cons hr _ ih =>
    intro b hb
    rcases List.mem_cons.mp hb with rfl | hb'
    · exact ⟨_, List.mem_cons_self _ _, hr⟩
    · obtain ⟨a, ha, hra⟩ := ih hb'
      exact ⟨a, List.mem_cons_of_mem _ ha, hra⟩

theorem pyIntTok_err {t : Text} {e : Err} (h : pyIntTok t = .error e) :
    e = .invalidHexToken ∧ pyInt16 t = none := by
  unfold pyIntTok at h
  cases hp : pyInt16 t with
  | some v => rw [hp] at h; cases h
  | none => rw [hp] at h; cases h; exact ⟨rfl, rfl⟩

theorem pyIntTok_ok {t : Text} {v : Int} (h : pyIntTok t = .ok v) : pyInt16 t = some v := by
  unfold pyIntTok at h
  cases hp : pyInt16 t with
  | some v' => rw [hp] at h; cases h; rfl
  | none => rw [hp] at h; cases h

theorem toByte_err {v : Int} {e : Err} (h : toByte v = .error e) :
    e = .invalidHexToken ∧ ¬ (0 ≤ v ∧ v < 256) := by
  by_cases hv : 0 ≤ v ∧ v < 256
  · rw [toByte, dif_pos hv] at h; cases h
  · rw [toByte, dif_neg hv] at h; cases h; exact ⟨rfl, hv⟩

theorem toByte_ok {v : Int} {b : Byte} (h : toByte v = .ok b) :
    0 ≤ v ∧ v < 256 ∧ (b.val : Int) = v := by
  by_cases hv : 0 ≤ v ∧ v < 256
  · rw [toByte, dif_pos hv] at h
    cases h
    refine ⟨hv.1, hv.2, ?_⟩
    simp only [Fin.val_mk]
    omega
  · rw [toByte, dif_neg hv] at h; cases h

theorem toByte_val (b : Byte) : toByte (b.val : Int) = .ok b := by
  have h : 0 ≤ (b.val : Int) ∧ (b.val : Int) < 256 := ⟨Int.ofNat_nonneg _, by exact_mod_cast b.isLt⟩
  rw [toByte, dif_pos h]
  congr 1

theorem pySplit_space_cons {c : Char} (hc : pyIsSpace c = true) (r : List Char) :
    pySplit (c :: r) = pySplit r := by
  cases r with
  | nil => simp [pySplit, hc]
  | cons d cs => simp only [pySplit, hc, if_true]

theorem pySplit_token {t : List Char} (hne : t ≠ [])
    (hns : ∀ c ∈ t, pyIsSpace c = false) : pySplit t = [t] := by
  induction t with
  | nil => cases hne rfl
  | cons c cs ih =>
    have hc : pyIsSpace c = false := hns c (List.mem_cons_self _ _)
    cases cs with
    | nil => simp [pySplit, hc]
    | cons d cs' =>
      have hd : pyIsSpace d = false := hns d (List.mem_cons_of_mem _ (List.mem_cons_self _ _))
      have hrec : pySplit (d :: cs') = [d :: cs'] :=
        ih (by simp) (fun c' hc' => hns c' (List.mem_cons_of_mem _ hc'))
      simp only [pySplit, hc, hd, Bool.false_eq_true, if_false, hrec]

theorem pySplit_token_append {t : List Char} (hne : t ≠ [])
    (hns : ∀ c ∈ t, pyIsSpace c = false) (r : List Char) :
    pySplit (t ++ ' ' :: r) = t :: pySplit r := by
  induction t with
  | nil => cases hne rfl
  | cons c cs ih =>
    have hc : pyIsSpace c = false := hns c (List.mem_cons_self _ _)
    have hsp : pyIsSpace ' ' = true := by decide
    cases cs with
    | nil =>
      show pySplit (c :: ' ' :: r) = [c] :: pySplit r
      simp only [pySplit, hc, Bool.false_eq_true, if_false, hsp, if_true]
      rw [pySplit_space_cons hsp]
    | cons d cs' =>
      have hd : pyIsSpace d = false := hns d (List.mem_cons_of_mem _ (List.mem_cons_self _ _))
      have hrec : pySplit ((d :: cs') ++ ' ' :: r) = (d :: cs') :: pySplit r :=
        ih (by simp) (fun c' hc' => hns c' (List.mem_cons_of_mem _ hc'))
      show pySplit (c :: ((d :: cs') ++ ' ' :: r)) = (c :: d :: cs') :: pySplit r
      simp only [List.cons_append, pySplit, hc, hd, Bool.false_eq_true, if_false]
      simp only [List.cons_append, List.append_eq] at hrec ⊢
      rw [hrec]

theorem pySplit_joinSep :
    ∀ {ts : List (List Char)},
      (∀ t ∈ ts, t ≠ [] ∧ ∀ c ∈ t, pyIsSpace c = false) →
        pySplit (joinSep [' '] ts) = ts := by
  intro ts
  induction ts with
  | nil => intro _; rfl
  | cons t ts ih =>
    intro h
    obtain ⟨hne, hns⟩ := h t (List.mem_cons_self _ _)
    cases ts with
    | nil => simpa [joinSep] using pySplit_token hne hns
    | cons t' ts' =>
      have hrest : pySplit (joinSep [' '] (t' :: ts')) = t' :: ts' :=
        ih (fun u hu => h u (List.mem_cons_of_mem _ hu))
      have hj : joinSep [' '] (t :: t' :: ts') = t ++ ' ' :: joinSep [' '] (t' :: ts') := by
        show t ++ [' '] ++ joinSep [' '] (t' :: ts') = _
        rw [List.append_assoc]
        rfl
      rw [hj, pySplit_token_append hne hns, hrest]

theorem pySplitOnSpace_token {t : List Char} (hns : ∀ c ∈ t, c ≠ ' ') :
    pySplitOnSpace t = [t] := by
  induction t with
  | nil => rfl
  | cons c cs ih =>
    have hc : c ≠ ' ' := hns c (List.mem_cons_self _ _)
    have hrec : pySplitOnSpace cs = [cs] :=
      ih (fun c' hc' => hns c' (List.mem_cons_of_mem _ hc'))
    simp only [pySplitOnSpace, hc, if_false, hrec]

theorem pySplitOnSpace_token_append {t : List Char} (hns : ∀ c ∈ t, c ≠ ' ')
    (r : List Char) : pySplitOnSpace (t ++ ' ' :: r) = t :: pySplitOnSpace r := by
  induction t with
  | nil => simp [pySplitOnSpace]
  | cons c cs ih =>
    have hc : c ≠ ' ' := hns c (List.mem_cons_self _ _)
    have hrec : pySplitOnSpace (cs ++ ' ' :: r) = cs :: pySplitOnSpace r :=
      ih (fun c' hc' => hns c' (List.mem_cons_of_mem _ hc'))
    show pySplitOnSpace (c :: (cs ++ ' ' :: r)) = (c :: cs) :: pySplitOnSpace r
    simp only [pySplitOnSpace, hc, if_false, hrec]

theorem pySplitOnSpace_joinSep :
    ∀ {ts : List (List Char)}, ts ≠ [] →
      (∀ t ∈ ts, ∀ c ∈ t, c ≠ ' ') →
        pySplitOnSpace (joinSep [' '] ts) = ts := by
  intro ts
  induction ts with
  | nil => intro h; cases h rfl
  | cons t ts ih =>
    intro _ h
    have hns := h t (List.mem_cons_self _ _)
    cases ts with
    | nil => simpa [joinSep] using pySplitOnSpace_token hns
    | cons t' ts' =>
      have hrest : pySplitOnSpace (joinSep [' '] (t' :: ts')) = t' :: ts' :=
        ih (by simp) (fun u hu => h u (List.mem_cons_of_mem _ hu))
      have hj : joinSep [' '] (t :: t' :: ts') = t ++ ' ' :: joinSep [' '] (t' :: ts') := by
        show t ++ [' '] ++ joinSep [' '] (t' :: ts') = _
        rw [List.append_assoc]
        rfl
      rw [hj, pySplitOnSpace_token_append hns, hrest]

set_option maxRecDepth 8000 in
theorem byteHex_parse : ∀ b : Byte, pyInt16 (byteHex b) = some (b.val : Int) := by decide

set_option maxRecDepth 8000 in
theorem byteHex_shape :
    ∀ b : Byte, (byteHex b).length = 2 ∧ (byteHex b).all isUpperHexDigit = true ∧
      (byteHex b).all (fun c => !pyIsSpace c) = true ∧
      (byteHex b).all (fun c => c ≠ ' ') = true := by decide

theorem hexify_decode_singleton (b : Byte) : Hexify.decode [b] = byteHex b := by
  simp [Hexify.decode]

theorem listMapE_pyIntTok_byteHex :
    ∀ bs : List Byte,
      listMapE pyIntTok (bs.map byteHex) = .ok (bs.map fun b => (b.val : Int)) := by
  intro bs
  induction bs with
  | nil => rfl
  | cons b bs ih =>
    have hb : pyIntTok (byteHex b) = .ok (b.val : Int) := by
      unfold pyIntTok
      rw [byteHex_parse b]
    simp only [List.map_cons, listMapE, hb, ih]

theorem listMapE_toByte_vals :
    ∀ bs : List Byte, listMapE toByte (bs.map fun b => (b.val : Int)) = .ok bs := by
  intro bs
  induction bs with
  | nil => rfl
  | cons b bs ih => simp only [List.map_cons, listMapE, toByte_val b, ih]

theorem hexify_decode_cons (b : Byte) (bs : List Byte) :
    Hexify.decode (b :: bs) = byteHex b ++ Hexify.decode bs := by
  simp [Hexify.decode]

theorem hexify_decode_length : ∀ bs : List Byte, (Hexify.decode bs).length = 2 * bs.length := by
  intro bs
  induction bs with
  | nil => rfl
  | cons b bs ih =>
    rw [hexify_decode_cons, List.length_append, ih]
    simp only [List.length_cons]
    have : (byteHex b).length = 2 := (byteHex_shape b).1
    omega

theorem hexify_decode_all :
    ∀ bs : List Byte, (Hexify.decode bs).all isUpperHexDigit = true := by
  intro bs
  induction bs with
  | nil => rfl
  | cons b bs ih =>
    rw [hexify_decode_cons, List.all_append, ih, (byteHex_shape b).2.1]
    rfl

theorem hexifySpaces_decode_eq (bs : List Byte) :
    HexifySpaces.decode bs = joinSep [' '] (bs.map byteHex) := by
  simp only [HexifySpaces.decode, hexify_decode_singleton]

theorem byteHex_token_facts (b : Byte) :
    byteHex b ≠ [] ∧ (∀ c ∈ byteHex b, pyIsSpace c = false) ∧ ∀ c ∈ byteHex b, c ≠ ' ' := by
  have h := byteHex_shape b
  refine ⟨?_, ?_, ?_⟩
  · intro hnil
    rw [hnil] at h
    cases h.1
  · intro c hc
    have := List.all_eq_true.mp h.2.2.1 c hc
    simpa using this
  · intro c hc
    have := List.all_eq_true.mp h.2.2.2 c hc
    simpa using this

theorem hexifySpaces_encode_ok_iff (s : Text) :
    (∃ bs, HexifySpaces.encode s = .ok bs) ↔ ∀ t ∈ pySplit s, validHexToken t = true := by
  constructor
  · rintro ⟨bs, h⟩ t ht
    unfold HexifySpaces.encode at h
    cases h1 : listMapE pyIntTok (pySplit s) with
    | error e => rw [h1] at h; cases h
    | ok vs =>
      rw [h1] at h
      obtain ⟨v, hv, htok⟩ := forall₂_exists_right (listMapE_ok_forall₂ h1) ht
      obtain ⟨b, _, hb⟩ := forall₂_exists_right (listMapE_ok_forall₂ h) hv
      obtain ⟨h0, h1', -⟩ := toByte_ok hb
      unfold validHexToken
      rw [pyIntTok_ok htok]
      simp [h0, h1']
  · intro hall
    cases h1 : listMapE pyIntTok (pySplit s) with
    | error e =>
      obtain ⟨t, ht, hterr⟩ := listMapE_err_mem h1
      obtain ⟨-, hnone⟩ := pyIntTok_err hterr
      have hvt := hall t ht
      unfold validHexToken at hvt
      rw [hnone] at hvt
      cases hvt
    | ok vs =>
      cases h2 : listMapE toByte vs with
      | error e =>
        obtain ⟨v, hv, hverr⟩ := listMapE_err_mem h2
        obtain ⟨-, hnr⟩ := toByte_err hverr
        obtain ⟨t, ht, htok⟩ := forall₂_exists_left (listMapE_ok_forall₂ h1) hv
        have hvt := hall t ht
        unfold validHexToken at hvt
        rw [pyIntTok_ok htok] at hvt
        exact absurd (of_decide_eq_true hvt) hnr
      | ok bs =>
        refine ⟨bs, ?_⟩
        unfold HexifySpaces.encode
        rw [h1]
        exact h2

theorem hexifySpaces_encode_err_val {s : Text} {e : Err}
    (h : HexifySpaces.encode s = .error e) : e = .invalidHexToken := by
  unfold HexifySpaces.encode at h
  cases h1 : listMapE pyIntTok (pySplit s) with
  | error e' =>
    rw [h1] at h
    cases h
    obtain ⟨t, -, ht⟩ := listMapE_err_mem h1
    exact (pyIntTok_err ht).1
  | ok vs =>
    rw [h1] at h
    obtain ⟨v, -, hv⟩ := listMapE_err_mem h
    exact (toByte_err hv).1

/-- C4: for every byte buffer `bs`, `Hexify.decode(bs)` produces for each byte
exactly two uppercase hexadecimal characters (zero-padded, so parsing the pair
recovers the byte value), concatenated in buffer order, and the output length
is exactly `2 * len(bs)`. -/
theorem hexify_decode_format (bs : List Byte) (b : Byte) :
    (Hexify.decode bs).length = 2 * bs.length
    ∧ (Hexify.decode bs).all isUpperHexDigit = true
    ∧ Hexify.decode (b :: bs) = Hexify.decode [b] ++ Hexify.decode bs
    ∧ (Hexify.decode [b]).length = 2
    ∧ pyInt16 (Hexify.decode [b]) = some (b.val : Int) := by
  refine ⟨hexify_decode_length bs, hexify_decode_all bs, ?_, ?_, ?_⟩
  · rw [hexify_decode_cons, hexify_decode_singleton]
  · rw [hexify_decode_singleton]
    exact (byteHex_shape b).1
  · rw [hexify_decode_singleton]
    exact byteHex_parse b

/-- C3: for every byte sequence `bs`, `HexifySpaces.decode(bs)` splits on
single spaces into exactly `len(bs)` tokens — the tokens being precisely the
two-character uppercase hexadecimal spellings of the corresponding bytes, in
order — and the round-trip `HexifySpaces.encode(HexifySpaces.decode(bs)) = bs`
holds. -/
theorem hexifySpaces_decode_roundtrip (bs : List Byte) :
    HexifySpaces.encode (HexifySpaces.decode bs) = .ok bs
    ∧ (bs ≠ [] → pySplitOnSpace (HexifySpaces.decode bs) = bs.map byteHex
        ∧ (pySplitOnSpace (HexifySpaces.decode bs)).length = bs.length)
    ∧ ∀ b : Byte, (byteHex b).length = 2 ∧ (byteHex b).all isUpperHexDigit = true
        ∧ pyInt16 (byteHex b) = some (b.val : Int) := by
  refine ⟨?_, ?_, ?_⟩
  · have htoks : ∀ t ∈ bs.map byteHex, t ≠ [] ∧ ∀ c ∈ t, pyIsSpace c = false := by
      intro t ht
      obtain ⟨b, -, rfl⟩ := List.mem_map.mp ht
      exact ⟨(byteHex_token_facts b).1, (byteHex_token_facts b).2.1⟩
    unfold HexifySpaces.encode
    rw [hexifySpaces_decode_eq, pySplit_joinSep htoks, listMapE_pyIntTok_byteHex]
    exact listMapE_toByte_vals bs
  · intro hne
    have hsplit : pySplitOnSpace (HexifySpaces.decode bs) = bs.map byteHex := by
      rw [hexifySpaces_decode_eq]
      refine pySplitOnSpace_joinSep (fun hmap => hne ?_) ?_
      · exact List.map_eq_nil_iff.mp hmap
      · intro t ht
        obtain ⟨b, -, rfl⟩ := List.mem_map.mp ht
        exact (byteHex_token_facts b).2.2
    rw [hsplit, List.length_map]
    exact ⟨rfl, rfl⟩
  · intro b
    exact ⟨(byteHex_shape b).1, (byteHex_shape b).2.1, byteHex_parse b⟩

theorem hexifySpaces_decode_roundtrip_witness :
    HexifySpaces.encode (HexifySpaces.decode [(65 : Byte), (2 : Byte)]) =
      .ok [(65 : Byte), (2 : Byte)]
    ∧ pySplitOnSpace (HexifySpaces.decode [(65 : Byte), (2 : Byte)]) =
      [(65 : Byte), (2 : Byte)].map byteHex :=
  ⟨(hexifySpaces_decode_roundtrip [65, 2]).1,
   ((hexifySpaces_decode_roundtrip [65, 2]).2.1 (by decide)).1⟩

/-- C7: `HexifySpaces.encode(s)` fails, with the error the specification
names `InvalidHexToken`, if and only if some whitespace-separated token of
`s` is not a valid hexadecimal number in [0,255]; otherwise it succeeds with
a full output buffer (in the `Except` embedding a failing call produces no
partial output by construction). -/
theorem hexifySpaces_encode_invalid_token_iff (s : Text) :
    (HexifySpaces.encode s = .error .invalidHexToken ↔
      ∃ t ∈ pySplit s, validHexToken t = false)
    ∧ (HexifySpaces.encode s = .error .invalidHexToken ∨
      ∃ bs, HexifySpaces.encode s = .ok bs) := by
  have hiff := hexifySpaces_encode_ok_iff s
  constructor
  · constructor
    · intro herr
      by_contra hno
      push_neg at hno
      have hall : ∀ t ∈ pySplit s, validHexToken t = true := by
        intro t ht
        cases hvt : validHexToken t with
        | false => exact absurd hvt (hno t ht)
        | true => rfl
      obtain ⟨bs, hok⟩ := hiff.mpr hall
      rw [herr] at hok
      cases hok
    · rintro ⟨t, ht, hvt⟩
      cases henc : HexifySpaces.encode s with
      | error e =>
        cases hexifySpaces_encode_err_val henc
        rfl
      | ok bs =>
        have hall := hiff.mp ⟨bs, henc⟩
        rw [hall t ht] at hvt
        cases hvt
  · cases henc : HexifySpaces.encode s with
    | error e =>
      cases hexifySpaces_encode_err_val henc
      exact Or.inl rfl
    | ok bs => exact Or.inr ⟨bs, rfl⟩

/-- C10: `HexifySpaces.encode` splits its input on every run of whitespace
(not only single spaces) and accepts tokens of any number of hexadecimal
digits, provided the parsed value is in [0,255]: `encode("0041")` produces
the single byte 0x41, and `encode("41  02")` — with two separating spaces —
produces the bytes 0x41, 0x02, as does a mix of tabs, newlines and trailing
whitespace. -/
theorem hexifySpaces_encode_flexible_tokens :
    HexifySpaces.encode ['0', '0', '4', '1'] = .ok [(0x41 : Byte)]
    ∧ HexifySpaces.encode ['4', '1', ' ', ' ', '0', '2'] = .ok [(0x41 : Byte), (2 : Byte)]
    ∧ HexifySpaces.encode ['\t', '4', '1', '\n', '\n', '0', '2', ' '] =
      .ok [(0x41 : Byte), (2 : Byte)]
    ∧ pySplit ['4', '1', ' ', ' ', '0', '2'] = [['4', '1'], ['0', '2']] :=
  ⟨rfl, rfl, rfl, rfl⟩

/-- C2: the claim states that `Hexify.encode` consumes its input two
characters at a time, one output byte per pair (so that
`Hexify.encode(Hexify.decode([b])) = [b]`).  The source instead advances its
window index one character at a time, producing one output byte per input
character from overlapping windows: on the two-character input `"41"`
(which is `Hexify.decode([0x41])`) it returns the two bytes 0x41, 0x01
rather than the single byte 0x41. -/
theorem hexify_encode_overlapping_window :
    Hexify.decode [(0x41 : Byte)] = ['4', '1']
    ∧ Hexify.encode ['4', '1'] = .ok [(0x41 : Byte), (1 : Byte)]
    ∧ ¬ Hexify.encode (Hexify.decode [(0x41 : Byte)]) = .ok [(0x41 : Byte)] := by
  refine ⟨by decide, rfl, ?_⟩
  intro h
  have hv : Hexify.encode (Hexify.decode [(0x41 : Byte)]) =
      .ok [(0x41 : Byte), (1 : Byte)] := rfl
  rw [hv] at h
  have hlist := Except.ok.inj h
  exact absurd hlist (by decide)

/-- C5: for every byte `b`, `MonospaceASCIIByte.decode([b])` returns the
character with code point `b` when `chr(b)` is printable per the standard
printability classification, and otherwise the character with code point
`256 + b` — always a code point in 256–511, disjoint from the byte range;
in particular `decode([0x41]) = "A"` and `decode([0x01]) = chr(257)`. -/
theorem monospaceASCIIByte_printable_substitution (b : Byte) :
    MonospaceASCIIByte.decode [b] =
      some [Char.ofNat (if isprintableByte b.val then b.val else 256 + b.val)]
    ∧ 256 ≤ 256 + b.val ∧ 256 + b.val ≤ 511
    ∧ MonospaceASCIIByte.decode [(0x41 : Byte)] = some ['A']
    ∧ MonospaceASCIIByte.decode [(1 : Byte)] = some [Char.ofNat 257] := by
  refine ⟨?_, Nat.le_add_right _ _, ?_, by decide, by decide⟩
  · cases h : isprintableByte b.val with
    | false => simp [MonospaceASCIIByte.decode, h]
    | true => simp [MonospaceASCIIByte.decode, h]
  · have := b.isLt
    omega

/-- C9: `MonospaceASCIIByte.decode` depends only on the first byte of its
buffer — `decode(b :: rest) = decode([b])` for every suffix `rest` — returns
exactly one character, and fails on the empty buffer (indexing the first
byte). -/
theorem monospaceASCIIByte_first_byte_only (b : Byte) (rest : List Byte) :
    MonospaceASCIIByte.decode (b :: rest) = MonospaceASCIIByte.decode [b]
    ∧ (MonospaceASCIIByte.decode (b :: rest)).map List.length = some 1
    ∧ MonospaceASCIIByte.decode ([] : List Byte) = none :=
  ⟨rfl, rfl, rfl⟩

/-- C8: invoking an operation a codec does not implement — here `encode` on
each of the decode-only codecs ASCII, MonospaceASCIIByte, MonospaceASCII, the
table codec and the dual-channel codec — fails for every input with the
error the specification names `UnsupportedOperation` (the
`NotImplementedError` of the abstract `Codec` base class), rather than
returning or partially processing anything. -/
theorem codec_unsupported_operation (s : Text) :
    ASCII.encode s = .error .unsupportedOperation
    ∧ MonospaceASCIIByte.encode s = .error .unsupportedOperation
    ∧ MonospaceASCII.encode s = .error .unsupportedOperation
    ∧ MajinTenseiIIByte.encode s = .error .unsupportedOperation
    ∧ Mt2GarbageTextPair.encode s = .error .unsupportedOperation :=
  ⟨rfl, rfl, rfl, rfl, rfl⟩

/-- C6: for every byte `b`, `MajinTenseiIIByte.decode([b])` returns exactly
the transliteration table's entry for `b` when present, fails with the error
the specification names `UndefinedByteMapping` when `b` has no entry, and the
codec supports no encode operation. -/
theorem majinTenseiIIByte_table_lookup (table : TransliterationTable) (b : Byte) (t : Text) :
    (table b = some t → MajinTenseiIIByte.decode table [b] = .ok t)
    ∧ (table b = none →
        MajinTenseiIIByte.decode table [b] = .error .undefinedByteMapping)
    ∧ ∀ s : Text, MajinTenseiIIByte.encode s = .error .unsupportedOperation := by
  refine ⟨?_, ?_, fun _ => rfl⟩
  · intro h
    simp [MajinTenseiIIByte.decode, h]
  · intro h
    simp [MajinTenseiIIByte.decode, h]

theorem majinTenseiIIByte_table_lookup_witness :
    MajinTenseiIIByte.decode demoTable [0] = .ok ['A']
    ∧ MajinTenseiIIByte.decode demoTable [1] = .error .undefinedByteMapping :=
  ⟨(majinTenseiIIByte_table_lookup demoTable 0 ['A']).1 (by decide),
   (majinTenseiIIByte_table_lookup demoTable 1 ['A']).2.1 (by decide)⟩

/-- C1: `Mt2GarbageTextPair.decode(bs)` partitions `bs` by index parity
preserving relative order, decodes the odd-index bytes per byte through the
monospace-substitution codec into the garbage string, decodes the even-index
bytes per byte through the table codec into the text string, and returns
`garbage ++ text` (garbage first, not interleaved); in particular
`decode([t0, g0, t1, g1]) = MonospaceASCII.decode([g0, g1]) ++ entry(t0) ++
entry(t1)`, and an odd-length buffer is accepted silently — `decode([t0])`
succeeds with an empty garbage partition. -/
theorem mt2GarbageTextPair_decode_channels (table : TransliterationTable) :
    (∀ (bs : List Byte) (parts : List Text),
      listMapE (fun b => MajinTenseiIIByte.decode table [b]) (everyOther bs) = .ok parts →
        Mt2GarbageTextPair.decode table bs =
          .ok (MonospaceASCII.decode (everyOther (bs.drop 1)) ++ parts.flatten))
    ∧ (∀ t0 g0 t1 g1 : Byte, ∀ s0 s1 : Text, table t0 = some s0 → table t1 = some s1 →
        Mt2GarbageTextPair.decode table [t0, g0, t1, g1] =
          .ok (MonospaceASCII.decode [g0, g1] ++ (s0 ++ s1)))
    ∧ (∀ t0 : Byte, ∀ s0 : Text, table t0 = some s0 →
        Mt2GarbageTextPair.decode table [t0] = .ok (([] : Text) ++ s0)) := by
  refine ⟨?_, ?_, ?_⟩
  · intro bs parts h
    unfold Mt2GarbageTextPair.decode
    rw [h]
    rfl
  · intro t0 g0 t1 g1 s0 s1 h0 h1
    unfold Mt2GarbageTextPair.decode
    have heo : everyOther [t0, g0, t1, g1] = [t0, t1] := rfl
    rw [heo]
    simp only [listMapE, MajinTenseiIIByte.decode, h0, h1]
    show Except.ok (MonospaceASCII.decode [g0, g1] ++ (s0 ++ (s1 ++ []))) = _
    rw [List.append_nil]
  · intro t0 s0 h0
    unfold Mt2GarbageTextPair.decode
    have heo : everyOther [t0] = [t0] := rfl
    rw [heo]
    simp only [listMapE, MajinTenseiIIByte.decode, h0]
    show Except.ok (([] : Text) ++ (s0 ++ [])) = _
    rw [List.append_nil]

theorem mt2GarbageTextPair_decode_channels_witness :
    Mt2GarbageTextPair.decode demoTable [0, 1, 2, 3] =
      .ok (MonospaceASCII.decode (everyOther ([0, 1, 2, 3].drop 1)) ++
        [(['A'] : Text), (['B'] : Text)].flatten)
    ∧ Mt2GarbageTextPair.decode demoTable [0, 1, 2, 3] =
      .ok (MonospaceASCII.decode [1, 3] ++ (['A'] ++ ['B']))
    ∧ Mt2GarbageTextPair.decode demoTable [0] = .ok (([] : Text) ++ ['A']) :=
  ⟨(mt2GarbageTextPair_decode_channels demoTable).1 [0, 1, 2, 3] [['A'], ['B']] rfl,
   (mt2GarbageTextPair_decode_channels demoTable).2.1 0 1 2 3 ['A'] ['B'] rfl rfl,
   (mt2GarbageTextPair_decode_channels demoTable).2.2 0 ['A'] rfl⟩

